import Mathlib

/-!
Verification development for the skill-manager CLI (src/index.js).

The JavaScript source is shallowly embedded: directory trees become an
inductive type, the metadata-extraction regexes become explicit functions on
character lists, and the stateful scan/install routines become pure functions
threading their accumulators.  Strings are modelled by Lean `String`
(a list of characters); JavaScript string operations that work on UTF-16
code units coincide with the character-based model on the inputs considered
here.
-/

namespace SkillManager

/-- Characters matched by the JavaScript regex class `\s` (WhiteSpace and
LineTerminator), as used in `/^#?\s*name:\s*(.+)$/m` and removed by
`String.prototype.trim()`: tab, line feed, vertical tab, form feed,
carriage return, space, no-break space, ogham space mark, the en-quad
through hair-space range U+2000..U+200A, line separator, paragraph
separator, narrow no-break space, medium mathematical space, ideographic
space, and the byte-order mark. -/
def isJsWs (c : Char) : Bool :=
  c == ' ' || c == '\t' || c == '\n' || c == '\r' || c == '\u000B' ||
    c == '\u000C' || c == '\u00A0' || c == '\u1680' ||
    (0x2000 ≤ c.toNat && c.toNat ≤ 0x200A) ||
    c == '\u2028' || c == '\u2029' || c == '\u202F' || c == '\u205F' ||
    c == '\u3000' || c == '\uFEFF'

/-- Characters that are JavaScript line terminators: `.` in a regex without
the `s` flag does not match them, and `^`/`$` with the `m` flag anchor
around them. -/
def isLineTerm (c : Char) : Bool :=
  c == '\n' || c == '\r' || c == '\u2028' || c == '\u2029'

/-- Models the JavaScript `String.prototype.trim()` call applied to a
captured group: leading and trailing `\s`-class characters are removed. -/
def trimJs (cs : List Char) : List Char :=
  ((cs.dropWhile isJsWs).reverse.dropWhile isJsWs).reverse

/-- Models the tail `\s*(.+)$` of the metadata regexes, applied after the
literal key has been consumed.  `\s*` is greedy and may span line
terminators; `(.+)` then needs at least one non-line-terminator character.
When everything after the key is whitespace, the greedy `\s*` backtracks one
character at a time, and the first position whose character is not a line
terminator yields a one-character capture (every later character is a line
terminator by maximality). -/
def matchAfterKey (cs : List Char) : Option (List Char) :=
  match cs.dropWhile isJsWs with
  | [] =>
    match (cs.filter (fun c => !isLineTerm c)).getLast? with
    | some c => some [c]
    | none => none
  | c :: rest => some ((c :: rest).takeWhile (fun c => !isLineTerm c))

/-- Attempts the regex `^#?\s*KEY\s*(.+)$` at one anchoring position
(`cs` is the suffix of the content starting at a line start).  The optional
`#` and the first `\s*` are deterministic here because the keys used by the
program start with a letter: backtracking into them can never help. -/
def matchAtStart (key : List Char) (cs : List Char) : Option (List Char) :=
  let afterHash := match cs with
    | c :: r => if c = '#' then r else cs
    | [] => cs
  let afterWs := afterHash.dropWhile isJsWs
  if key.isPrefixOf afterWs then matchAfterKey (afterWs.drop key.length)
  else none

/-- Suffixes of the content that start just after a line terminator; with
the initial position these are exactly the anchoring positions of `^` under
the `m` flag. -/
def lineStartSuffixesGo : List Char → List (List Char)
  | [] => []
  | c :: rest =>
    if isLineTerm c then rest :: lineStartSuffixesGo rest
    else lineStartSuffixesGo rest

/-- All anchoring positions of `^` (the start of the string and every
position following a line terminator), in left-to-right order. -/
def lineStartSuffixes (cs : List Char) : List (List Char) :=
  cs :: lineStartSuffixesGo cs

/-- Leftmost-match semantics of `String.prototype.match` for the pattern
`^#?\s*KEY\s*(.+)$` with the `m` flag: anchoring positions are tried left to
right and the first successful one provides the captured group. -/
def findFieldCapture (key : List Char) (cs : List Char) : Option (List Char) :=
  (lineStartSuffixes cs).findSome? (matchAtStart key)

/-- Models `content.match(/^#?\s*KEY\s*(.+)$/m)` followed by
`match[1].trim()` in `scanDirectory`: the captured group of the first match,
trimmed, or `none` when the regex does not match. -/
def extractField (key : String) (content : String) : Option String :=
  (findFieldCapture key.data content.data).map (fun cap => String.mk (trimJs cap))

/-- Models the truncation step of `scanDirectory`: a description longer than
50 characters is replaced by its first 47 characters followed by the
three-character marker `...`. -/
def truncateDescription (d : String) : String :=
  if d.length > 50 then String.mk (d.data.take 47) ++ "..." else d

/-- Entry of a directory listing: a file with its text content, or a
subdirectory with its own listing.  The `readable` flag records whether
`fs.readdir` succeeds on the directory; an existence check (`fs.pathExists`)
and reads of files inside it are not affected by the flag. -/
inductive FSEntry where
  | file (name : String) (content : String)
  | dir (name : String) (readable : Bool) (entries : List FSEntry)
  deriving Repr

/-- Name of a directory entry, as returned by `fs.readdir`. -/
def FSEntry.name : FSEntry → String
  | .file n _ => n
  | .dir n _ _ => n

/-- Models `path.join(dirPath, entry.name)` for a directory path and a
simple entry name (names returned by `readdir` contain no separators, so the
join is plain concatenation with a slash). -/
def joinPath (dp n : String) : String := dp ++ "/" ++ n

/-- Models `category ? path.join(category, entry.name) : entry.name` in
`scanDirectory`: the empty string is falsy in JavaScript, so a root-level
directory contributes its bare name. -/
def joinCat (c n : String) : String := if c = "" then n else c ++ "/" ++ n

/-- First entry with the given name, as the filesystem resolves a path. -/
def findEntry (n : String) (es : List FSEntry) : Option FSEntry :=
  es.find? (fun e => e.name = n)

/-- Models `fs.pathExists(path.join(fullPath, 'skill.md'))`: an entry named
`skill.md` exists, whether it is a file or a directory. -/
def hasSkillMd (es : List FSEntry) : Bool :=
  (findEntry "skill.md" es).isSome

/-- Models `fs.readFile(skillMdPath, 'utf-8')`: the content when the
`skill.md` entry is a regular file, and `none` when it is a directory, in
which case the read throws (EISDIR) into the caller's catch block. -/
def readSkillMd (es : List FSEntry) : Option String :=
  match findEntry "skill.md" es with
  | some (.file _ c) => some c
  | _ => none

/-- Record pushed by `scanDirectory` for each discovered skill. -/
structure SkillRecord where
  name : String
  displayName : String
  description : String
  category : String
  path : String
  deriving Repr, DecidableEq

/-- Builds the record pushed in the skill branch of `scanDirectory`:
metadata is extracted from the descriptor content with fallback defaults,
and the description is truncated. -/
def mkSkillRecord (n content c fullPath : String) : SkillRecord :=
  { name := n
    displayName := (extractField "name:" content).getD n
    description :=
      truncateDescription ((extractField "description:" content).getD "No description")
    category := c
    path := fullPath }

/-- Body of the `for` loop of `scanDirectory`, over the listing `es` of the
directory `dp` with accumulated category `c`.  Returns the records appended,
the scan-failure reports emitted (each the path passed to the
`console.error` in a catch block), and whether the loop ran to completion:
`false` means a throw escaped to the enclosing frame's catch — this happens
exactly when a `skill.md` entry is a directory, so that `fs.readFile` on it
rejects — which abandons the remaining entries of `es`.  A recursive call on
a subdirectory catches its own failures, so it never aborts the caller. -/
def scanEntries (dp c : String) (es : List FSEntry) :
    List SkillRecord × List String × Bool :=
  match es with
  | [] => ([], [], true)
  | .file _ _ :: rest => scanEntries dp c rest
  | .dir n r sub :: rest =>
    let fullPath := joinPath dp n
    if hasSkillMd sub then
      match readSkillMd sub with
      | some content =>
        let (recs, errs, ok) := scanEntries dp c rest
        (mkSkillRecord n content c fullPath :: recs, errs, ok)
      | none => ([], [], false)
    else
      let subRes :=
        if r then
          let (rs, errs, ok) := scanEntries fullPath (joinCat c n) sub
          (rs, if ok then errs else errs ++ [fullPath])
        else ([], [fullPath])
      let (recs, errs, ok) := scanEntries dp c rest
      (subRes.1 ++ recs, subRes.2 ++ errs, ok)

/-- Models one call of `scanDirectory(dirPath, category)` on a directory
with listing `es`: an unreadable directory makes `fs.readdir` throw, which
the catch block turns into a report for `dirPath` and zero records; a throw
escaping the entry loop is likewise reported for `dirPath`. -/
def scanDirectory (dp c : String) (readable : Bool) (es : List FSEntry) :
    List SkillRecord × List String :=
  if readable then
    let (recs, errs, ok) := scanEntries dp c es
    (recs, if ok then errs else errs ++ [dp])
  else ([], [dp])

/-- Models `scanSkills(repositoryPath)`: the scan starts at the repository
root with the empty accumulated category. -/
def scanSkills (repoPath : String) (readable : Bool) (es : List FSEntry) :
    List SkillRecord × List String :=
  scanDirectory repoPath "" readable es

/-- Category label used for display: `skill.category || 'Uncategorized'`
(the empty string is the only falsy string). -/
def labelOf (s : SkillRecord) : String :=
  if s.category = "" then "Uncategorized" else s.category

/-- Own-property names of `Object.prototype`: property lookup on a plain
object literal `{}` finds these on the prototype chain even when the object
has no own property of that name, and each of their inherited values
(functions, or the prototype itself for the `__proto__` accessor) is
truthy. -/
def objectProtoKeys : List String :=
  ["constructor", "hasOwnProperty", "isPrototypeOf", "propertyIsEnumerable",
    "toLocaleString", "toString", "valueOf", "__proto__",
    "__defineGetter__", "__defineSetter__", "__lookupGetter__",
    "__lookupSetter__"]

/-- Own-property update step of the grouping loop, taken when the label is
not an inherited `Object.prototype` name: an existing own key keeps its
position (JavaScript objects keep string keys in insertion order) and gets
the skill appended; a new own key is appended at the end.  The
prototype-chain lookup that guards this step is modelled in
`groupSkillsE`. -/
def groupInsert (m : List (String × List SkillRecord)) (l : String)
    (s : SkillRecord) : List (String × List SkillRecord) :=
  match m with
  | [] => [(l, [s])]
  | (k, g) :: rest =>
    if k = l then (k, g ++ [s]) :: rest else (k, g) :: groupInsert rest l s

/-- The own-property map the grouping loop builds when no label collides
with an `Object.prototype` name (the successful path of
`skillsByCategoryE`). -/
def skillsByCategory (skills : List SkillRecord) :
    List (String × List SkillRecord) :=
  skills.foldl (fun m s => groupInsert m (labelOf s) s) []

/-- Models the grouping loop of `main` on the plain object
`skillsByCategory = {}`.  The guard `if (!skillsByCategory[category])`
consults the prototype chain: for a label that is an `Object.prototype`
property name the inherited value is truthy, so the array initialisation is
skipped and `skillsByCategory[category].push(skill)` calls `.push` on a
function (or on `Object.prototype` for the label `__proto__`), throwing a
TypeError that aborts the program — modelled as an error carrying the
offending label.  Any other label is an own-property array update. -/
def groupSkillsE : List SkillRecord → List (String × List SkillRecord) →
    Except String (List (String × List SkillRecord))
  | [], m => .ok m
  | s :: rest, m =>
    if labelOf s ∈ objectProtoKeys then .error (labelOf s)
    else groupSkillsE rest (groupInsert m (labelOf s) s)

/-- The category map of `main`, with the prototype-chain failure mode. -/
def skillsByCategoryE (skills : List SkillRecord) :
    Except String (List (String × List SkillRecord)) :=
  groupSkillsE skills []

/-- Lexicographic comparison of character lists, by character value: the
order used by the default comparator of `Array.prototype.sort` on strings
(code-unit order, which agrees with character order on the characters
involved here). -/
def lexLeChars : List Char → List Char → Bool
  | [], _ => true
  | _ :: _, [] => false
  | a :: as, b :: bs =>
    if a < b then true else if a = b then lexLeChars as bs else false

/-- Lexicographic string comparison used by the category sort. -/
def strLeb (a b : String) : Bool := lexLeChars a.data b.data

/-- Insertion step of the sort. -/
def insertSorted (x : String) : List String → List String
  | [] => [x]
  | y :: ys => if strLeb x y then x :: y :: ys else y :: insertSorted x ys

/-- Models `Object.keys(skillsByCategory).sort()`: the default `sort`
comparator orders strings lexicographically.  Since the keys are pairwise
distinct, the sorted sequence is unique, so the choice of sorting algorithm
is immaterial; insertion sort is used. -/
def sortStrings (l : List String) : List String := l.foldr insertSorted []

/-- The sorted category labels driving the display order. -/
def sortedCategories (skills : List SkillRecord) : List String :=
  sortStrings ((skillsByCategory skills).map Prod.fst)

/-- The choice-construction result on the successful grouping path: one
group per sorted category label, holding `skillsByCategory[category]` in
stored order (`Object.keys` lists own properties only). -/
def groupForDisplay (skills : List SkillRecord) :
    List (String × List SkillRecord) :=
  (sortedCategories skills).map
    (fun cat => (cat, (List.lookup cat (skillsByCategory skills)).getD []))

/-- Models the grouping-and-display stage of `main` end to end: grouping
may throw on an `Object.prototype` label collision; otherwise the sorted
groups are built from the own-property map. -/
def groupForDisplayE (skills : List SkillRecord) :
    Except String (List (String × List SkillRecord)) :=
  (skillsByCategoryE skills).map (fun m =>
    (sortStrings (m.map Prod.fst)).map
      (fun cat => (cat, (List.lookup cat m).getD [])))

/-- Fixed relative install location. -/
def CLAUDE_SKILLS_DIR : String := ".claude/skills"

/-- Models `path.join(targetDir, CLAUDE_SKILLS_DIR)`. -/
def targetBasePath (targetDir : String) : String :=
  joinPath targetDir CLAUDE_SKILLS_DIR

/-- Models `path.join(targetPath, skill.name)`: the destination of one
skill, depending only on the skill's name. -/
def targetSkillPath (targetDir name : String) : String :=
  joinPath (targetBasePath targetDir) name

/-- The `.claude/skills` directory viewed as a map from installed skill
names to the copied directory contents.  A directory is an unordered
name-to-content map; it is represented canonically as an association list
with at most one entry per name, kept in first-created order. -/
abbrev SkillsDir := List (String × List FSEntry)

/-- Net effect on the skills directory of the remove-then-copy step for one
skill: the entry for the name now holds exactly the copied contents.  On the
canonical representation an existing name keeps its position; a new name is
appended. -/
def insertReplace (st : SkillsDir) (n : String) (v : List FSEntry) : SkillsDir :=
  match st with
  | [] => [(n, v)]
  | (k, w) :: rest =>
    if k = n then (k, v) :: rest else (k, w) :: insertReplace rest n v

/-- Effect of `fs.remove(targetSkillPath)`: the entry for the name, if any,
is deleted. -/
def eraseKey (st : SkillsDir) (n : String) : SkillsDir :=
  st.filter (fun p => ¬ p.1 = n)

/-- Models `installSkills(skills, targetDir)` acting on the skills
directory.  `src` resolves a skill's source path to the directory contents
that `fs.copy` would copy; `none` models a copy failure.  The loop removes
any existing target, then copies; a copy failure rejects out of the loop
(the remove has already happened), so the error carries the failing skill's
name and the directory state at that point.  A failed `fs.copy` may have
written part of the tree before failing; `residue` supplies what the failed
copy left at the target — `none` for a copy that failed before writing
anything, `some t` for a partial tree `t` — so statements about the error
path quantify over it.  `fs.ensureDir` on the base directory only creates
missing ancestors and does not affect the map. -/
def installSkills (src : String → Option (List FSEntry))
    (residue : String → Option (List FSEntry))
    (skills : List SkillRecord) (st : SkillsDir) :
    Except (String × SkillsDir) SkillsDir :=
  match skills with
  | [] => .ok st
  | s :: rest =>
    match src s.path with
    | some tree => installSkills src residue rest (insertReplace st s.name tree)
    | none =>
      .error (s.name,
        match residue s.path with
        | none => eraseKey st s.name
        | some t => insertReplace st s.name t)

/-- Keys of the skills directory. -/
def keysOf (st : SkillsDir) : List String := st.map Prod.fst

/-- Modelled from the spec: the slash-joined path of category directory
names from the repository root down to a skill's parent (empty for a skill
whose parent is the root). -/
def joinCats : List String → String
  | [] => ""
  | c :: rest =>
    match rest with
    | [] => c
    | _ :: _ => c ++ "/" ++ joinCats rest

/-- Modelled from the spec: the scanner with the accumulated category kept
as the sequence of category directory names instead of a joined string; a
record's category is the slash-join of that sequence.  The traversal
structure mirrors `scanEntries` exactly. -/
def specScanEntries (dp : String) (cats : List String) (es : List FSEntry) :
    List SkillRecord × List String × Bool :=
  match es with
  | [] => ([], [], true)
  | .file _ _ :: rest => specScanEntries dp cats rest
  | .dir n r sub :: rest =>
    let fullPath := joinPath dp n
    if hasSkillMd sub then
      match readSkillMd sub with
      | some content =>
        let (recs, errs, ok) := specScanEntries dp cats rest
        (mkSkillRecord n content (joinCats cats) fullPath :: recs, errs, ok)
      | none => ([], [], false)
    else
      let subRes :=
        if r then
          let (rs, errs, ok) := specScanEntries fullPath (cats ++ [n]) sub
          (rs, if ok then errs else errs ++ [fullPath])
        else ([], [fullPath])
      let (recs, errs, ok) := specScanEntries dp cats rest
      (subRes.1 ++ recs, subRes.2 ++ errs, ok)

/-- Every directory name in the forest is nonempty (true of any listing a
real filesystem can return). -/
def namesOkList : List FSEntry → Bool
  | [] => true
  | .file _ _ :: rest => namesOkList rest
  | .dir n _ sub :: rest => !(n == "") && namesOkList sub && namesOkList rest

/-- Every directory in the forest is listable. -/
def allReadable : List FSEntry → Bool
  | [] => true
  | .file _ _ :: rest => allReadable rest
  | .dir _ r sub :: rest => r && allReadable sub && allReadable rest

/-- No entry named `skill.md` occurs anywhere in the forest: no directory of
the forest is a skill and none has skill-bearing descendants. -/
def noSkillMd : List FSEntry → Bool
  | [] => true
  | .file n _ :: rest => !(n == "skill.md") && noSkillMd rest
  | .dir n _ sub :: rest => !(n == "skill.md") && noSkillMd sub && noSkillMd rest

/-- Processing this entry in the scan loop does not throw into the caller's
frame: the entry is a file, or a directory whose `skill.md` entry (if any)
is readable as a file.  Only a directory whose `skill.md` entry is itself a
directory makes the loop throw. -/
def entryReadOk : FSEntry → Bool
  | .file _ _ => true
  | .dir _ _ sub => !hasSkillMd sub || (readSkillMd sub).isSome

/-- Lines of the text, split at line terminators (a trailing terminator
yields a final empty line, matching the anchoring positions of `^`). -/
def splitLines : List Char → List (List Char)
  | [] => [[]]
  | c :: rest =>
    if isLineTerm c then [] :: splitLines rest
    else
      match splitLines rest with
      | l :: ls => (c :: l) :: ls
      | [] => [[c]]

/-- Strips the optional leading hash, then leading whitespace, from a line. -/
def stripHashWs (line : List Char) : List Char :=
  (match line with
    | c :: r => if c = '#' then r else line
    | [] => line).dropWhile isJsWs

/-- Modelled from the spec: a line begins (after an optional leading hash
and whitespace) with the exact field keyword followed by its colon (the
keyword passed here includes the colon). -/
def lineQualifies (key : List Char) (line : List Char) : Bool :=
  key.isPrefixOf (stripHashWs line)

/-- Remainder of a qualifying line after the keyword and colon. -/
def lineRemainder (key : List Char) (line : List Char) : List Char :=
  (stripHashWs line).drop key.length

/-- Modelled from the spec (section 4.1): the field's value is the trimmed
remainder of the first line of the text that begins (after an optional
leading hash and whitespace) with the field keyword and colon; no such line
means the field is unset. -/
def specExtractField (key content : String) : Option String :=
  ((splitLines content.data).find? (lineQualifies key.data)).map
    (fun l => String.mk (trimJs (lineRemainder key.data l)))

/-- Fixture: a skill record with the given name, category and source path. -/
def exSkill (n c p : String) : SkillRecord :=
  { name := n, displayName := n, description := "d", category := c, path := p }

/-- Fixture: contents of two source skill directories. -/
def exTreeA : List FSEntry := [.file "f" "contentsA"]

/-- Fixture: contents of a second source skill directory. -/
def exTreeB : List FSEntry := [.file "f" "contentsB"]

/-- Fixture: a source filesystem resolving two skill paths; every other
path fails to copy. -/
def exSrc : String → Option (List FSEntry) := fun p =>
  if p = "/w/A/x" then some exTreeA
  else if p = "/w/B/x" then some exTreeB
  else none

/-- Fixture: a repository with nesting `A/B/skillX`. -/
def exTreeABX : List FSEntry :=
  [.dir "A" true [.dir "B" true
    [.dir "skillX" true [.file "skill.md" "name: X\ndescription: dx"]]]]

/-- Fixture: skills in categories Zeta, Alpha and empty, in scanner order. -/
def exGroupSkills : List SkillRecord :=
  [exSkill "s1" "Zeta" "p1", exSkill "s2" "Alpha" "p2", exSkill "s3" "" "p3"]

/-- C4: the truncation policy of `scanDirectory`.  A description longer than
50 characters is replaced by its first 47 characters followed by the
three-character ellipsis marker, for a total length of exactly 50; a
description of at most 50 characters is stored unchanged. -/
theorem c4_truncation (d : String) :
    (d.length > 50 →
      truncateDescription d = String.mk (d.data.take 47) ++ "..." ∧
        (truncateDescription d).length = 50) ∧
    (d.length ≤ 50 → truncateDescription d = d) := by
  constructor
  · intro h
    have he : truncateDescription d = String.mk (d.data.take 47) ++ "..." := by
      unfold truncateDescription
      rw [if_pos h]
    refine ⟨he, ?_⟩
    rw [he, String.length_append]
    have h47 : (String.mk (d.data.take 47)).length = 47 := by
      show (d.data.take 47).length = 47
      have hd : d.length = d.data.length := rfl
      rw [List.length_take]
      omega
    rw [h47]
    decide
  · intro h
    unfold truncateDescription
    rw [if_neg (by omega)]

/-- C4 witness: a 51-character description is truncated to 50 characters
ending in the ellipsis marker; a 50-character description is untouched. -/
theorem c4_truncation_witness :
    ((String.mk (List.replicate 51 'a')).length > 50 ∧
      truncateDescription (String.mk (List.replicate 51 'a')) =
        String.mk ((String.mk (List.replicate 51 'a')).data.take 47) ++ "..." ∧
      (truncateDescription (String.mk (List.replicate 51 'a'))).length = 50) ∧
    ((String.mk (List.replicate 50 'b')).length ≤ 50 ∧
      truncateDescription (String.mk (List.replicate 50 'b')) =
        String.mk (List.replicate 50 'b')) :=
  ⟨⟨by decide, (c4_truncation _).1 (by decide)⟩,
    by decide, (c4_truncation _).2 (by decide)⟩

/-- C1 counterexample: a repository root that itself directly contains the
descriptor file yields zero skill records, not one.  The scan only examines
directory entries of the listing, so the root's own `skill.md` file is
skipped and the root is never treated as a skill. -/
theorem c1_counterexample :
    scanSkills "/repo" true [FSEntry.file "skill.md" "name: Root"] = ([], []) ∧
      ¬(scanSkills "/repo" true [FSEntry.file "skill.md" "name: Root"]).1.length = 1 := by
  have h : scanSkills "/repo" true [FSEntry.file "skill.md" "name: Root"] = ([], []) := by
    simp [scanSkills, scanDirectory, scanEntries]
  exact ⟨h, by rw [h]; decide⟩

/-- C1 amended: a descriptor file directly in the repository root is ignored
by the scan; the root is never recorded as a skill, and the scan result is
exactly that of the root listing without the descriptor file (so a root
containing only a descriptor file yields zero records). -/
theorem c1_amended (repoPath content : String) (readable : Bool)
    (rest : List FSEntry) :
    scanSkills repoPath readable (FSEntry.file "skill.md" content :: rest) =
      scanSkills repoPath readable rest := by
  simp [scanSkills, scanDirectory, scanEntries]

theorem lookup_cons {β : Type} (c k : String) (w : β) (rest : List (String × β)) :
    List.lookup c ((k, w) :: rest) =
      if c = k then some w else List.lookup c rest := by
  by_cases h : c = k
  · subst h
    simp [List.lookup]
  · simp [List.lookup, beq_false_of_ne h, h]

theorem lookup_insertReplace (st : SkillsDir) (n : String) (v : List FSEntry)
    (c : String) :
    List.lookup c (insertReplace st n v) =
      if c = n then some v else List.lookup c st := by
  induction st with
  | nil =>
    by_cases h : c = n <;> simp [insertReplace, lookup_cons, h]
  | cons p rest ih =>
    obtain ⟨k, w⟩ := p
    by_cases hkn : k = n
    · subst hkn
      by_cases hck : c = k <;> simp [insertReplace, lookup_cons, hck]
    · by_cases hck : c = k
      · subst hck
        simp [insertReplace, hkn, lookup_cons, Ne.symm hkn]
      · simp [insertReplace, hkn, lookup_cons, hck, ih]

theorem insertReplace_lookup_self (st : SkillsDir) (n : String)
    (v : List FSEntry) (h : List.lookup n st = some v) :
    insertReplace st n v = st := by
  induction st with
  | nil => simp [List.lookup] at h
  | cons p rest ih =>
    obtain ⟨k, w⟩ := p
    by_cases hkn : k = n
    · subst hkn
      rw [lookup_cons, if_pos rfl] at h
      cases h
      simp [insertReplace]
    · rw [lookup_cons, if_neg (Ne.symm hkn)] at h
      simp [insertReplace, hkn, ih h]

theorem insertReplace_twice (st : SkillsDir) (n : String) (v w : List FSEntry) :
    insertReplace (insertReplace st n v) n w = insertReplace st n w := by
  induction st with
  | nil => simp [insertReplace]
  | cons p rest ih =>
    obtain ⟨k, u⟩ := p
    by_cases hkn : k = n
    · subst hkn
      simp [insertReplace]
    · simp [insertReplace, hkn, ih]

theorem mem_keysOf_insertReplace (st : SkillsDir) (n : String)
    (v : List FSEntry) (m : String) :
    m ∈ keysOf (insertReplace st n v) ↔ m ∈ keysOf st ∨ m = n := by
  induction st with
  | nil => simp [insertReplace, keysOf]
  | cons p rest ih =>
    obtain ⟨k, u⟩ := p
    by_cases hkn : k = n
    · subst hkn
      simp [insertReplace, keysOf]
      tauto
    · simp [insertReplace, keysOf, hkn] at ih ⊢
      tauto

theorem insertReplace_comm (st : SkillsDir) (k m : String)
    (v w : List FSEntry) (hks : k ∈ keysOf st) (hne : k ≠ m) :
    insertReplace (insertReplace st k v) m w =
      insertReplace (insertReplace st m w) k v := by
  induction st with
  | nil => simp [keysOf] at hks
  | cons p rest ih =>
    obtain ⟨a, u⟩ := p
    by_cases hak : a = k
    · subst hak
      simp [insertReplace, hne, Ne.symm hne]
    · by_cases ham : a = m
      · subst ham
        simp [insertReplace, hak]
      · have hks' : k ∈ keysOf rest := by
          have hmem : k ∈ a :: keysOf rest := hks
          rcases List.mem_cons.mp hmem with h | h
          · exact absurd h.symm hak
          · exact h
        simp [insertReplace, hak, ham, ih hks']

theorem install_ok_keys (src residue : String → Option (List FSEntry))
    (sel : List SkillRecord) :
    ∀ st out, installSkills src residue sel st = .ok out →
      ∀ k, k ∈ keysOf st → k ∈ keysOf out := by
  induction sel with
  | nil =>
    intro st out h k hk
    simp only [installSkills, Except.ok.injEq] at h
    exact h ▸ hk
  | cons s rest ih =>
    intro st out h k hk
    cases hs : src s.path with
    | none => simp [installSkills, hs] at h
    | some t =>
      simp only [installSkills, hs] at h
      exact ih _ _ h k ((mem_keysOf_insertReplace ..).mpr (Or.inl hk))

theorem install_ok_lookup_not_mem (src residue : String → Option (List FSEntry))
    (sel : List SkillRecord) :
    ∀ st out, installSkills src residue sel st = .ok out →
      ∀ k, (∀ s ∈ sel, s.name ≠ k) →
        List.lookup k out = List.lookup k st := by
  induction sel with
  | nil =>
    intro st out h k _
    simp only [installSkills, Except.ok.injEq] at h
    exact h ▸ rfl
  | cons s rest ih =>
    intro st out h k hk
    cases hs : src s.path with
    | none => simp [installSkills, hs] at h
    | some t =>
      simp only [installSkills, hs] at h
      have h1 := ih _ _ h k (fun s' hs' => hk s' (List.mem_cons_of_mem _ hs'))
      rw [h1, lookup_insertReplace, if_neg]
      intro he
      exact hk s (List.mem_cons_self ..) he.symm

theorem install_frame (src residue : String → Option (List FSEntry))
    (rest : List SkillRecord) :
    ∀ st out k v, installSkills src residue rest st = .ok out →
      k ∈ keysOf st → (∃ s ∈ rest, s.name = k) →
      installSkills src residue rest (insertReplace st k v) = .ok out := by
  induction rest with
  | nil =>
    intro st out k v _ _ hmem
    simp at hmem
  | cons r rest' ih =>
    intro st out k v h hk hmem
    cases hs : src r.path with
    | none => simp [installSkills, hs] at h
    | some t =>
      simp only [installSkills, hs] at h ⊢
      by_cases hrk : r.name = k
      · subst hrk
        rw [insertReplace_twice]
        exact h
      · rcases hmem with ⟨s, hsmem, hsname⟩
        rcases List.mem_cons.mp hsmem with he | hmem'
        · exact absurd (he ▸ hsname) hrk
        · rw [insertReplace_comm st k r.name v t hk (fun he => hrk he.symm)]
          exact ih _ _ _ _ h ((mem_keysOf_insertReplace ..).mpr (Or.inl hk))
            ⟨s, hmem', hsname⟩

/-- C6: install is idempotent.  If a run of `installSkills` over a selection
succeeds and produces the destination skills directory `st1`, then re-running
it with the same selection and unmodified source contents succeeds and leaves
the destination exactly `st1` — byte-identical to the state after the single
install, thanks to the delete-then-copy step for each skill. -/
theorem c6_install_idempotent (src residue : String → Option (List FSEntry))
    (sel : List SkillRecord) :
    ∀ st st1, installSkills src residue sel st = .ok st1 →
      installSkills src residue sel st1 = .ok st1 := by
  induction sel with
  | nil =>
    intro st st1 h
    simp only [installSkills, Except.ok.injEq] at h
    rw [h] at h ⊢
    rfl
  | cons s rest ih =>
    intro st st1 h
    cases hs : src s.path with
    | none => simp [installSkills, hs] at h
    | some t =>
      simp only [installSkills, hs] at h ⊢
      have hok1 : installSkills src residue rest st1 = .ok st1 := ih _ _ h
      by_cases hmem : ∃ s' ∈ rest, s'.name = s.name
      · have hk1 : s.name ∈ keysOf st1 :=
          install_ok_keys src residue rest _ _ h s.name
            ((mem_keysOf_insertReplace ..).mpr (Or.inr rfl))
        exact install_frame src residue rest st1 st1 s.name t hok1 hk1 hmem
      · push_neg at hmem
        have hl : List.lookup s.name st1 = some t := by
          rw [install_ok_lookup_not_mem src residue rest _ _ h s.name hmem,
            lookup_insertReplace, if_pos rfl]
        rw [insertReplace_lookup_self _ _ _ hl]
        exact hok1

/-- C6 witness: installing two concrete skills into an empty destination,
then re-running the install on the result, reproduces the same destination. -/
theorem c6_install_idempotent_witness :
    installSkills exSrc (fun _ => none)
        [exSkill "x" "A" "/w/A/x", exSkill "y" "" "/w/B/x"] [] =
        .ok [("x", exTreeA), ("y", exTreeB)] ∧
      installSkills exSrc (fun _ => none)
          [exSkill "x" "A" "/w/A/x", exSkill "y" "" "/w/B/x"]
          [("x", exTreeA), ("y", exTreeB)] =
        .ok [("x", exTreeA), ("y", exTreeB)] :=
  ⟨rfl, c6_install_idempotent _ _ _ ([] : SkillsDir) _ rfl⟩

theorem lookup_eraseKey (st : SkillsDir) (n m : String) (h : m ≠ n) :
    List.lookup m (eraseKey st n) = List.lookup m st := by
  induction st with
  | nil => rfl
  | cons p rest ih =>
    obtain ⟨k, w⟩ := p
    by_cases hkn : k = n
    · subst hkn
      have he : eraseKey ((k, w) :: rest) k = eraseKey rest k := by
        simp [eraseKey]
      rw [he, ih, lookup_cons, if_neg h]
    · have he : eraseKey ((k, w) :: rest) n = (k, w) :: eraseKey rest n := by
        simp [eraseKey, hkn]
      rw [he, lookup_cons, lookup_cons, ih]

/-- C7 counterexample: with two selected skills sharing a name, a copy
failure on the second can remove the first from the destination, so "skills
1..N-1 remain fully installed" fails as stated.  Skill 1 and skill 2 are
both named `x`; skill 1 installs (the destination holds `x`), then skill
2's remove step deletes `x` and its copy fails; in the execution in which
the failed copy wrote nothing before failing (residue `none`), the
destination no longer contains `x` at all. -/
theorem c7_counterexample :
    installSkills exSrc (fun _ => none)
        [exSkill "x" "A" "/w/A/x", exSkill "x" "B" "/w/missing",
          exSkill "z" "" "/w/B/x"] [] = .error ("x", []) ∧
      installSkills exSrc (fun _ => none) [exSkill "x" "A" "/w/A/x"] [] =
        .ok [("x", exTreeA)] ∧
      List.lookup "x" ([] : SkillsDir) = none :=
  ⟨rfl, rfl, rfl⟩

/-- C7 amended: if copying the N-th selected skill fails, the install stops
and reports the failure for that skill, no later skill is attempted (the
error value is the same for every continuation of the selection), and —
provided no earlier selected skill shares the failing skill's name — the
entries of skills 1..N-1 are exactly as after installing them; the failing
skill's own target is whatever the interrupted remove-then-copy left
(absent, or a partial tree), about which nothing more is asserted. -/
theorem c7_install_partial_failure (src residue : String → Option (List FSEntry))
    (pre : List SkillRecord) (sk : SkillRecord) (st st' : SkillsDir)
    (hok : installSkills src residue pre st = .ok st')
    (hfail : src sk.path = none)
    (hdist : ∀ s ∈ pre, s.name ≠ sk.name) :
    ∃ st2, (∀ post : List SkillRecord,
        installSkills src residue (pre ++ sk :: post) st =
          .error (sk.name, st2)) ∧
      ∀ s ∈ pre, List.lookup s.name st2 = List.lookup s.name st' := by
  refine ⟨(match residue sk.path with
    | none => eraseKey st' sk.name
    | some t => insertReplace st' sk.name t), ?_, ?_⟩
  · intro post
    clear hdist
    induction pre generalizing st with
    | nil =>
      simp only [installSkills, Except.ok.injEq] at hok
      subst hok
      simp only [List.nil_append, installSkills, hfail]
    | cons p pre' ih =>
      cases hs : src p.path with
      | none => simp [installSkills, hs] at hok
      | some t =>
        simp only [installSkills, hs] at hok
        simp only [List.cons_append, installSkills, hs]
        exact ih _ hok
  · intro s hs
    have hne := hdist s hs
    cases hr : residue sk.path with
    | none =>
      simp only [hr]
      exact lookup_eraseKey st' sk.name s.name hne
    | some t =>
      simp only [hr]
      rw [lookup_insertReplace, if_neg hne]

/-- C7 witness: a concrete three-skill selection whose second skill fails
to copy: the first remains installed, the result reports the second, and
the third is immaterial. -/
theorem c7_install_partial_failure_witness :
    (installSkills exSrc (fun _ => none) [exSkill "x" "A" "/w/A/x"] [] =
        .ok [("x", exTreeA)] ∧
      exSrc (exSkill "y" "" "/w/missing").path = none) ∧
      ∃ st2, (∀ post : List SkillRecord,
          installSkills exSrc (fun _ => none)
            ([exSkill "x" "A" "/w/A/x"] ++ exSkill "y" "" "/w/missing" :: post)
            [] = .error ("y", st2)) ∧
        ∀ s ∈ [exSkill "x" "A" "/w/A/x"],
          List.lookup s.name st2 = List.lookup s.name [("x", exTreeA)] :=
  ⟨⟨rfl, rfl⟩,
    c7_install_partial_failure exSrc (fun _ => none)
      [exSkill "x" "A" "/w/A/x"] (exSkill "y" "" "/w/missing") []
      [("x", exTreeA)] rfl rfl (by decide)⟩

theorem install_append_ok (src residue : String → Option (List FSEntry))
    (a : List SkillRecord) :
    ∀ b st out, installSkills src residue (a ++ b) st = .ok out →
      ∃ m, installSkills src residue a st = .ok m ∧
        installSkills src residue b m = .ok out := by
  induction a with
  | nil => exact fun b st out h => ⟨st, rfl, h⟩
  | cons x a' ih =>
    intro b st out h
    cases hs : src x.path with
    | none => simp [installSkills, hs] at h
    | some t =>
      simp only [List.cons_append, installSkills, hs] at h ⊢
      exact ih _ _ _ h

/-- C10: the install target of a skill depends only on its name: two
selected skills with equal names (and possibly different categories and
source paths) are installed to the same destination path, and after a
successful install in which the later-listed one is the last selected skill
of that name, the destination entry for that name holds exactly the contents
copied from the later-listed skill's source. -/
theorem c10_install_target_by_name (dest : String)
    (src residue : String → Option (List FSEntry))
    (pre mid post : List SkillRecord)
    (s1 s2 : SkillRecord) (st st' : SkillsDir)
    (hname : s1.name = s2.name)
    (hok : installSkills src residue (pre ++ s1 :: mid ++ s2 :: post) st =
      .ok st')
    (hlast : ∀ s ∈ post, s.name ≠ s2.name) :
    targetSkillPath dest s1.name = targetSkillPath dest s2.name ∧
      List.lookup s2.name st' = src s2.path := by
  refine ⟨by rw [hname], ?_⟩
  have hsplit : pre ++ s1 :: mid ++ s2 :: post =
      (pre ++ s1 :: mid) ++ (s2 :: post) := by
    simp
  rw [hsplit] at hok
  obtain ⟨m, _, h2⟩ := install_append_ok src residue _ _ _ _ hok
  cases hs : src s2.path with
  | none => simp [installSkills, hs] at h2
  | some t =>
    simp only [installSkills, hs] at h2
    rw [install_ok_lookup_not_mem src residue post _ _ h2 s2.name hlast,
      lookup_insertReplace, if_pos rfl]

/-- C10 witness: two skills named `x` from different categories install to
the same target; after the install that target holds the second skill's
contents. -/
theorem c10_install_target_by_name_witness :
    installSkills exSrc (fun _ => none)
        [exSkill "x" "A" "/w/A/x", exSkill "x" "B" "/w/B/x"] [] =
        .ok [("x", exTreeB)] ∧
      targetSkillPath "/proj" (exSkill "x" "A" "/w/A/x").name =
        targetSkillPath "/proj" (exSkill "x" "B" "/w/B/x").name ∧
      List.lookup (exSkill "x" "B" "/w/B/x").name [("x", exTreeB)] =
        exSrc (exSkill "x" "B" "/w/B/x").path :=
  ⟨rfl,
    c10_install_target_by_name "/proj" exSrc (fun _ => none) [] [] []
      (exSkill "x" "A" "/w/A/x") (exSkill "x" "B" "/w/B/x") [] [("x", exTreeB)]
      rfl rfl (by decide)⟩

theorem lookup_groupInsert (m : List (String × List SkillRecord)) (l : String)
    (s : SkillRecord) (c : String) :
    List.lookup c (groupInsert m l s) =
      if c = l then some ((List.lookup l m).getD [] ++ [s])
      else List.lookup c m := by
  induction m with
  | nil =>
    by_cases h : c = l <;> simp [groupInsert, lookup_cons, h]
  | cons p rest ih =>
    obtain ⟨k, g⟩ := p
    by_cases hkl : k = l
    · subst hkl
      by_cases hck : c = k <;> simp [groupInsert, lookup_cons, hck]
    · by_cases hcl : c = l
      · subst hcl
        simp [groupInsert, hkl, lookup_cons, Ne.symm hkl, ih]
      · by_cases hck : c = k
        · subst hck
          simp [groupInsert, hkl, lookup_cons, hcl]
        · simp [groupInsert, hkl, lookup_cons, hck, hcl, ih]

theorem lookup_group_fold (skills : List SkillRecord) :
    ∀ m c,
      (List.lookup c
          (skills.foldl (fun m s => groupInsert m (labelOf s) s) m)).getD [] =
        (List.lookup c m).getD [] ++ skills.filter (fun s => labelOf s = c) := by
  induction skills with
  | nil => intro m c; simp
  | cons s rest ih =>
    intro m c
    rw [List.foldl_cons, ih]
    by_cases h : labelOf s = c
    · rw [List.filter_cons_of_pos (by simp [h]), lookup_groupInsert]
      subst h
      rw [if_pos rfl]
      simp
    · rw [List.filter_cons_of_neg (by simp [h]), lookup_groupInsert,
        if_neg (fun e => h e.symm)]

theorem keys_groupInsert (m : List (String × List SkillRecord)) (l : String)
    (s : SkillRecord) :
    (groupInsert m l s).map Prod.fst =
      if l ∈ m.map Prod.fst then m.map Prod.fst
      else m.map Prod.fst ++ [l] := by
  induction m with
  | nil => simp [groupInsert]
  | cons p rest ih =>
    obtain ⟨k, g⟩ := p
    by_cases hkl : k = l
    · subst hkl
      simp [groupInsert]
    · have hg : groupInsert ((k, g) :: rest) l s = (k, g) :: groupInsert rest l s := by
        simp [groupInsert, hkl]
      rw [hg]
      simp only [List.map_cons, ih]
      by_cases hm : l ∈ rest.map Prod.fst
      · simp [hm, List.mem_cons]
      · simp [hm, List.mem_cons, Ne.symm hkl]

theorem keys_nodup_fold (skills : List SkillRecord) :
    ∀ m : List (String × List SkillRecord), (m.map Prod.fst).Nodup →
      ((skills.foldl (fun m s => groupInsert m (labelOf s) s) m).map
          Prod.fst).Nodup := by
  induction skills with
  | nil => intro m h; exact h
  | cons s rest ih =>
    intro m h
    rw [List.foldl_cons]
    apply ih
    rw [keys_groupInsert]
    by_cases hm : labelOf s ∈ m.map Prod.fst
    · rwa [if_pos hm]
    · rw [if_neg hm]
      simp [List.nodup_append, h, hm]

theorem keys_mem_fold (skills : List SkillRecord) :
    ∀ (m : List (String × List SkillRecord)) (c : String),
      c ∈ (skills.foldl (fun m s => groupInsert m (labelOf s) s) m).map
          Prod.fst ↔
        c ∈ m.map Prod.fst ∨ ∃ s ∈ skills, labelOf s = c := by
  induction skills with
  | nil => simp
  | cons s rest ih =>
    intro m c
    rw [List.foldl_cons, ih, keys_groupInsert]
    by_cases hm : labelOf s ∈ m.map Prod.fst
    · rw [if_pos hm]
      constructor
      · rintro (h | ⟨x, hx, hxc⟩)
        · exact Or.inl h
        · exact Or.inr ⟨x, List.mem_cons_of_mem _ hx, hxc⟩
      · rintro (h | ⟨x, hx, hxc⟩)
        · exact Or.inl h
        · rcases List.mem_cons.mp hx with he | hmem
          · exact Or.inl ((he ▸ hxc : labelOf s = c) ▸ hm)
          · exact Or.inr ⟨x, hmem, hxc⟩
    · rw [if_neg hm]
      constructor
      · rintro (h | ⟨x, hx, hxc⟩)
        · rcases List.mem_append.mp h with h' | h'
          · exact Or.inl h'
          · exact Or.inr ⟨s, List.mem_cons_self ..,
              (List.mem_singleton.mp h').symm⟩
        · exact Or.inr ⟨x, List.mem_cons_of_mem _ hx, hxc⟩
      · rintro (h | ⟨x, hx, hxc⟩)
        · exact Or.inl (List.mem_append.mpr (Or.inl h))
        · rcases List.mem_cons.mp hx with he | hmem
          · exact Or.inl (List.mem_append.mpr
              (Or.inr (List.mem_singleton.mpr (he ▸ hxc : labelOf s = c).symm)))
          · exact Or.inr ⟨x, hmem, hxc⟩

theorem mem_insertSorted (x a : String) (l : List String) :
    a ∈ insertSorted x l ↔ a = x ∨ a ∈ l := by
  induction l with
  | nil => simp [insertSorted]
  | cons y ys ih =>
    by_cases h : strLeb x y = true
    · rw [insertSorted, if_pos h]
      simp [List.mem_cons]
    · rw [insertSorted, if_neg h, List.mem_cons, ih, List.mem_cons]
      tauto

theorem mem_sortStrings (a : String) (l : List String) :
    a ∈ sortStrings l ↔ a ∈ l := by
  induction l with
  | nil => simp [sortStrings]
  | cons x xs ih =>
    show a ∈ insertSorted x (sortStrings xs) ↔ _
    rw [mem_insertSorted, ih, List.mem_cons]

theorem nodup_insertSorted (x : String) (l : List String) (hx : x ∉ l)
    (h : l.Nodup) : (insertSorted x l).Nodup := by
  induction l with
  | nil => simp [insertSorted]
  | cons y ys ih =>
    rw [List.nodup_cons] at h
    by_cases hle : strLeb x y = true
    · rw [insertSorted, if_pos hle, List.nodup_cons, List.nodup_cons]
      exact ⟨hx, h⟩
    · rw [insertSorted, if_neg hle, List.nodup_cons, mem_insertSorted]
      refine ⟨?_, ih (fun hm => hx (List.mem_cons_of_mem _ hm)) h.2⟩
      rintro (he | hm)
      · exact hx (he ▸ List.mem_cons_self ..)
      · exact h.1 hm

theorem nodup_sortStrings (l : List String) (h : l.Nodup) :
    (sortStrings l).Nodup := by
  induction l with
  | nil => simp [sortStrings]
  | cons x xs ih =>
    rw [List.nodup_cons] at h
    show (insertSorted x (sortStrings xs)).Nodup
    exact nodup_insertSorted x _ (fun hm => h.1 ((mem_sortStrings ..).mp hm))
      (ih h.2)

theorem lexLeChars_total : ∀ x y : List Char,
    lexLeChars x y = true ∨ lexLeChars y x = true
  | [], _ => Or.inl rfl
  | _ :: _, [] => Or.inr rfl
  | a :: as, b :: bs => by
    rcases lt_trichotomy a b with h | h | h
    · left
      simp [lexLeChars, h]
    · subst h
      rcases lexLeChars_total as bs with h | h
      · left
        simp [lexLeChars, h]
      · right
        simp [lexLeChars, h]
    · right
      simp [lexLeChars, h]

theorem lexLeChars_iff_not_lex : ∀ x y : List Char,
    lexLeChars x y = true ↔ ¬ List.Lex (· < ·) y x
  | [], y => iff_of_true rfl (fun h => by cases h)
  | a :: as, [] =>
    iff_of_false (by simp [lexLeChars]) (fun h => h List.Lex.nil)
  | a :: as, b :: bs => by
    rcases lt_trichotomy a b with h | h | h
    · refine iff_of_true (by simp [lexLeChars, h]) (fun hl => ?_)
      cases hl with
      | rel hr => exact absurd h (lt_asymm hr)
      | cons hc => exact absurd h (lt_irrefl _)
    · subst h
      have ih := lexLeChars_iff_not_lex as bs
      rw [show lexLeChars (a :: as) (a :: bs) = lexLeChars as bs by
        simp [lexLeChars], ih]
      constructor
      · intro hn hl
        cases hl with
        | rel hr => exact absurd hr (lt_irrefl _)
        | cons hc => exact hn hc
      · exact fun hn hl => hn (List.Lex.cons hl)
    · refine iff_of_false ?_ (fun hn => hn (List.Lex.rel h))
      simp [lexLeChars, lt_asymm h, ne_of_gt h]

theorem strLeb_iff_le (a b : String) : strLeb a b = true ↔ a ≤ b := by
  rw [strLeb, lexLeChars_iff_not_lex]
  rw [show (List.Lex (· < ·) b.data a.data) = (b.toList < a.toList) from rfl]
  rw [← String.lt_iff_toList_lt]
  exact not_lt

theorem pairwise_insertSorted (x : String) (l : List String)
    (h : List.Pairwise (· ≤ ·) l) :
    List.Pairwise (· ≤ ·) (insertSorted x l) := by
  induction l with
  | nil => simp [insertSorted]
  | cons y ys ih =>
    rw [List.pairwise_cons] at h
    by_cases hle : strLeb x y = true
    · rw [insertSorted, if_pos hle, List.pairwise_cons]
      refine ⟨?_, List.pairwise_cons.mpr h⟩
      intro z hz
      rcases List.mem_cons.mp hz with he | hm
      · exact he ▸ (strLeb_iff_le ..).mp hle
      · exact le_trans ((strLeb_iff_le ..).mp hle) (h.1 z hm)
    · rw [insertSorted, if_neg hle, List.pairwise_cons]
      have hyx : y ≤ x := by
        rcases lexLeChars_total x.data y.data with ht | ht
        · exact absurd ht hle
        · exact (strLeb_iff_le ..).mp ht
      refine ⟨?_, ih h.2⟩
      intro z hz
      rcases (mem_insertSorted ..).mp hz with he | hm
      · exact he ▸ hyx
      · exact h.1 z hm

theorem pairwise_sortStrings (l : List String) :
    List.Pairwise (· ≤ ·) (sortStrings l) := by
  induction l with
  | nil => simp [sortStrings]
  | cons x xs ih =>
    exact pairwise_insertSorted x _ ih

theorem groupSkillsE_ok (skills : List SkillRecord) :
    ∀ m, (∀ s ∈ skills, labelOf s ∉ objectProtoKeys) →
      groupSkillsE skills m =
        .ok (skills.foldl (fun m s => groupInsert m (labelOf s) s) m) := by
  induction skills with
  | nil => intro m _; rfl
  | cons s rest ih =>
    intro m hsafe
    rw [groupSkillsE, if_neg (hsafe s (List.mem_cons_self ..)), List.foldl_cons]
    exact ih _ (fun s2 hs2 => hsafe s2 (List.mem_cons_of_mem _ hs2))

/-- C5 counterexample: grouping does not produce sorted grouped output for
every skill list.  A category label that is an `Object.prototype` property
name — here `toString`, a perfectly legal directory name — finds the
inherited truthy value in the `if (!skillsByCategory[category])` guard, so
the array initialisation is skipped and the `.push` call throws a
TypeError: the program aborts and no grouped output exists at this input,
where the claim asserts grouped, sorted output. -/
theorem c5_counterexample :
    groupForDisplayE [exSkill "s1" "toString" "p1"] = .error "toString" ∧
      ∀ g, groupForDisplayE [exSkill "s1" "toString" "p1"] ≠ .ok g := by
  have h : groupForDisplayE [exSkill "s1" "toString" "p1"] =
      .error "toString" := rfl
  exact ⟨h, fun g hg => by rw [h] at hg; cases hg⟩

/-- C5 amended: provided no skill's label (its category, with the empty
category mapped to `Uncategorized`) is an `Object.prototype` property name,
grouping succeeds, and then: every displayed group holds exactly the skills
whose label matches, in the scanner's relative order (`List.filter`
preserves order); the emitted category labels are lexicographically sorted
ascending and duplicate-free; the labels are exactly the labels occurring
among the skills, so `Uncategorized` sorts by its literal text among the
others; and the empty category is displayed as `Uncategorized`.  A label
colliding with an `Object.prototype` name instead makes the grouping loop
throw, and no grouped output is produced. -/
theorem c5_grouping (skills : List SkillRecord)
    (hsafe : ∀ s ∈ skills, labelOf s ∉ objectProtoKeys) :
    groupForDisplayE skills = .ok (groupForDisplay skills) ∧
      (∀ p ∈ groupForDisplay skills,
        p.2 = skills.filter (fun s => labelOf s = p.1)) ∧
      List.Pairwise (· ≤ ·) ((groupForDisplay skills).map Prod.fst) ∧
      ((groupForDisplay skills).map Prod.fst).Nodup ∧
      (∀ c, c ∈ (groupForDisplay skills).map Prod.fst ↔
          ∃ s ∈ skills, labelOf s = c) ∧
      ∀ s : SkillRecord, s.category = "" → labelOf s = "Uncategorized" := by
  have hkeys : (groupForDisplay skills).map Prod.fst = sortedCategories skills := by
    simp only [groupForDisplay, List.map_map]
    exact List.map_id _
  refine ⟨?_, ?_, ?_, ?_, ?_, ?_⟩
  · rw [groupForDisplayE, skillsByCategoryE, groupSkillsE_ok skills [] hsafe]
    rfl
  · intro p hp
    simp only [groupForDisplay, List.mem_map] at hp
    obtain ⟨c, hc, rfl⟩ := hp
    show (List.lookup c (skillsByCategory skills)).getD [] = _
    have h := lookup_group_fold skills [] c
    simpa [skillsByCategory] using h
  · rw [hkeys]
    exact pairwise_sortStrings _
  · rw [hkeys]
    exact nodup_sortStrings _ (keys_nodup_fold skills [] (by simp))
  · intro c
    rw [hkeys]
    unfold sortedCategories
    rw [mem_sortStrings]
    have h := keys_mem_fold skills [] c
    simpa [skillsByCategory] using h
  · intro s h
    simp [labelOf, h]

/-- C5 witness: skills in categories Zeta, Alpha and empty collide with no
prototype key; grouping succeeds and yields the label order Alpha,
Uncategorized, Zeta, each group holding its matching skills. -/
theorem c5_grouping_witness :
    ((∀ s ∈ exGroupSkills, labelOf s ∉ objectProtoKeys) ∧
      groupForDisplayE exGroupSkills = .ok (groupForDisplay exGroupSkills)) ∧
      (groupForDisplay exGroupSkills).map Prod.fst =
        ["Alpha", "Uncategorized", "Zeta"] ∧
      ∀ p ∈ groupForDisplay exGroupSkills,
        p.2 = exGroupSkills.filter (fun s => labelOf s = p.1) :=
  ⟨⟨by decide, (c5_grouping exGroupSkills (by decide)).1⟩, by decide,
    (c5_grouping exGroupSkills (by decide)).2.1⟩

theorem noSkillMd_hasSkillMd (es : List FSEntry) (h : noSkillMd es = true) :
    hasSkillMd es = false := by
  induction es with
  | nil => rfl
  | cons e rest ih =>
    cases e with
    | file n ct =>
      rw [noSkillMd, Bool.and_eq_true] at h
      have hn : ¬n = "skill.md" := by
        simpa using h.1
      simp [hasSkillMd, findEntry, List.find?, FSEntry.name, hn] at ih ⊢
      have := ih h.2
      simpa [hasSkillMd, findEntry] using this
    | dir n r sub =>
      rw [noSkillMd, Bool.and_eq_true, Bool.and_eq_true] at h
      have hn : ¬n = "skill.md" := by
        simpa using h.1.1
      have := ih h.2
      simp [hasSkillMd, findEntry, List.find?, FSEntry.name, hn]
      simpa [hasSkillMd, findEntry] using this

theorem scan_noSkillMd :
    ∀ (dp c : String) (es : List FSEntry), noSkillMd es = true →
      allReadable es = true → scanEntries dp c es = ([], [], true) := by
  intro dp c es
  induction dp, c, es using scanEntries.induct with
  | case1 dp c =>
    intro _ _
    simp [scanEntries]
  | case2 dp c n ct rest ih =>
    intro h hr
    rw [noSkillMd, Bool.and_eq_true] at h
    rw [allReadable] at hr
    rw [scanEntries]
    exact ih h.2 hr
  | case3 dp c n r sub rest hskill content hread recs errs ok heq ih =>
    intro h _
    rw [noSkillMd, Bool.and_eq_true, Bool.and_eq_true] at h
    rw [noSkillMd_hasSkillMd sub h.1.2] at hskill
    cases hskill
  | case4 dp c n r sub rest hskill hread =>
    intro h _
    rw [noSkillMd, Bool.and_eq_true, Bool.and_eq_true] at h
    rw [noSkillMd_hasSkillMd sub h.1.2] at hskill
    cases hskill
  | case5 dp c n r sub rest fullPath hskill recs errs ok heq ihsub ihrest =>
    intro h hr
    rw [noSkillMd, Bool.and_eq_true, Bool.and_eq_true] at h
    rw [allReadable, Bool.and_eq_true, Bool.and_eq_true] at hr
    have ihsub' : scanEntries (joinPath dp n) (joinCat c n) sub = ([], [], true) :=
      ihsub h.1.2 hr.1.2
    have ihrest' : scanEntries dp c rest = ([], [], true) := ihrest h.2 hr.2
    rw [scanEntries, if_neg hskill, ihsub', ihrest', hr.1.1]
    simp

/-- C2 counterexample: a directory entry named `skill.md` that is itself a
directory breaks the claimed trichotomy.  The directory `weird` directly
contains `skill.md` (so by the claim it should be recorded as a skill), yet
the existence check succeeds, the file read throws, and the scan of the
whole listing aborts: no record is produced for `weird`, the valid sibling
skill `skillC` is never visited, and a failure is reported — also
contradicting the zero-records-no-error reading for a directory without a
descriptor file. -/
theorem c2_counterexample :
    scanSkills "/repo" true
        [FSEntry.dir "weird" true [FSEntry.dir "skill.md" true []],
          FSEntry.dir "skillC" true [FSEntry.file "skill.md" "name: C"]] =
      ([], ["/repo"]) := by
  simp [scanSkills, scanDirectory, scanEntries, hasSkillMd, findEntry,
    List.find?, FSEntry.name, readSkillMd]

/-- C2 amended: the claimed trichotomy holds for every directory entry
whose `skill.md` entry, when present, is a regular file.  A directory whose
listing contains a readable descriptor file is recorded as exactly one
skill, and its subdirectories contribute nothing (the result depends on the
listing only through the descriptor's content); a directory without a
`skill.md` entry is recursed into as a category; a directory none of whose
descendants contains a `skill.md` entry, all of them listable, contributes
zero records and no error. -/
theorem c2_classification (dp c n : String) (r : Bool)
    (sub rest : List FSEntry) :
    (∀ content, readSkillMd sub = some content →
        scanEntries dp c (FSEntry.dir n r sub :: rest) =
          ((mkSkillRecord n content c (joinPath dp n)) ::
              (scanEntries dp c rest).1,
            (scanEntries dp c rest).2.1, (scanEntries dp c rest).2.2)) ∧
      (hasSkillMd sub = false →
        scanEntries dp c (FSEntry.dir n r sub :: rest) =
          ((scanDirectory (joinPath dp n) (joinCat c n) r sub).1 ++
              (scanEntries dp c rest).1,
            (scanDirectory (joinPath dp n) (joinCat c n) r sub).2 ++
              (scanEntries dp c rest).2.1,
            (scanEntries dp c rest).2.2)) ∧
      (noSkillMd sub = true → allReadable sub = true → r = true →
        scanDirectory (joinPath dp n) (joinCat c n) r sub = ([], [])) := by
  refine ⟨?_, ?_, ?_⟩
  · intro content hread
    have hskill : hasSkillMd sub = true := by
      unfold readSkillMd at hread
      unfold hasSkillMd
      cases hf : findEntry "skill.md" sub with
      | none => rw [hf] at hread; cases hread
      | some e => simp
    rw [scanEntries]
    simp only [hskill, if_true, hread]
  · intro hskill
    rw [scanEntries]
    simp only [hskill, Bool.false_eq_true, if_false, scanDirectory]
  · intro hno hall hr
    subst hr
    unfold scanDirectory
    rw [scan_noSkillMd _ _ _ hno hall]
    simp

/-- C2 witness: the three classification branches at concrete inputs — a
skill directory with a subdirectory (recorded once, subtree not scanned), a
category directory (recursed), and an empty category subtree (no records,
no errors). -/
theorem c2_classification_witness :
    (readSkillMd [FSEntry.file "skill.md" "name: C", FSEntry.dir "sub" true []] =
        some "name: C" ∧
      scanEntries "/r" ""
          [FSEntry.dir "s1" true
            [FSEntry.file "skill.md" "name: C", FSEntry.dir "sub" true []]] =
        ([mkSkillRecord "s1" "name: C" "" (joinPath "/r" "s1")], [], true)) ∧
      (noSkillMd [FSEntry.dir "inner" true []] = true ∧
        scanDirectory (joinPath "/r" "cat") (joinCat "" "cat") true
          [FSEntry.dir "inner" true []] = ([], [])) := by
  have h1 := (c2_classification "/r" "" "s1" true
    [FSEntry.file "skill.md" "name: C", FSEntry.dir "sub" true []] []).1
    "name: C" rfl
  have h3 := (c2_classification "/r" "" "cat" true
    [FSEntry.dir "inner" true []] []).2.2 (by simp [noSkillMd])
    (by simp [allReadable]) rfl
  refine ⟨⟨rfl, ?_⟩, by simp [noSkillMd], h3⟩
  rw [h1]
  simp [scanEntries]

theorem scan_ok_of_readOk :
    ∀ (dp c : String) (xs : List FSEntry), xs.all entryReadOk = true →
      (scanEntries dp c xs).2.2 = true := by
  intro dp c xs
  induction dp, c, xs using scanEntries.induct with
  | case1 dp c =>
    intro _
    simp [scanEntries]
  | case2 dp c n ct rest ih =>
    intro h
    rw [List.all_cons, Bool.and_eq_true] at h
    rw [scanEntries]
    exact ih h.2
  | case3 dp c n r sub rest hskill content hread recs errs ok heq ih =>
    intro h
    rw [List.all_cons, Bool.and_eq_true] at h
    have hok := ih h.2
    rw [heq] at hok
    simp at hok
    rw [scanEntries]
    simp [hskill, hread, heq, hok]
  | case4 dp c n r sub rest hskill hread =>
    intro h
    rw [List.all_cons, Bool.and_eq_true] at h
    have := h.1
    simp [entryReadOk, hskill, hread] at this
  | case5 dp c n r sub rest fullPath hskill recs errs ok heq ihsub ihrest =>
    intro h
    rw [List.all_cons, Bool.and_eq_true] at h
    have hok := ihrest h.2
    rw [heq] at hok
    simp at hok
    rw [scanEntries, if_neg hskill]
    simp [heq, hok]

theorem scanEntries_append :
    ∀ (dp c : String) (xs : List FSEntry), ∀ ys : List FSEntry,
      scanEntries dp c (xs ++ ys) =
        (if (scanEntries dp c xs).2.2 = true then
          ((scanEntries dp c xs).1 ++ (scanEntries dp c ys).1,
            (scanEntries dp c xs).2.1 ++ (scanEntries dp c ys).2.1,
            (scanEntries dp c ys).2.2)
        else scanEntries dp c xs) := by
  intro dp c xs
  induction dp, c, xs using scanEntries.induct with
  | case1 dp c =>
    intro ys
    simp [scanEntries]
  | case2 dp c n ct rest ih =>
    intro ys
    rw [List.cons_append]
    rw [show scanEntries dp c (FSEntry.file n ct :: (rest ++ ys)) =
      scanEntries dp c (rest ++ ys) from by rw [scanEntries]]
    rw [show scanEntries dp c (FSEntry.file n ct :: rest) =
      scanEntries dp c rest from by rw [scanEntries]]
    exact ih ys
  | case3 dp c n r sub rest hskill content hread recs errs ok heq ih =>
    intro ys
    rw [List.cons_append, scanEntries, scanEntries]
    simp only [hskill, if_true, hread, ih ys, heq]
    cases ok <;> simp
  | case4 dp c n r sub rest hskill hread =>
    intro ys
    rw [List.cons_append, scanEntries, scanEntries]
    simp [hskill, hread]
  | case5 dp c n r sub rest fullPath hskill recs errs ok heq ihsub ihrest =>
    intro ys
    rw [List.cons_append, scanEntries, scanEntries, if_neg hskill,
      if_neg hskill]
    simp only [ihrest ys, heq]
    cases ok <;> simp

/-- C8: a failure to list a directory is contained.  A directory marked
unlistable (and not itself a skill, since a directory with a descriptor is
recorded without being listed) contributes zero records and exactly one
failure report naming its path; in a listing around it, the preceding
entries (none of which throws into the shared loop frame) and the following
entries contribute exactly what they would contribute anyway — the scan
continues elsewhere and still returns the records found there. -/
theorem c8_scan_unreadable (dp c n : String) (sub : List FSEntry)
    (pre post : List FSEntry) (hn : hasSkillMd sub = false)
    (hpre : pre.all entryReadOk = true) :
    scanEntries dp c [FSEntry.dir n false sub] = ([], [joinPath dp n], true) ∧
      scanEntries dp c (pre ++ FSEntry.dir n false sub :: post) =
        ((scanEntries dp c pre).1 ++ (scanEntries dp c post).1,
          (scanEntries dp c pre).2.1 ++ joinPath dp n ::
            (scanEntries dp c post).2.1,
          (scanEntries dp c post).2.2) := by
  have hstep : ∀ post' : List FSEntry,
      scanEntries dp c (FSEntry.dir n false sub :: post') =
        ((scanEntries dp c post').1,
          joinPath dp n :: (scanEntries dp c post').2.1,
          (scanEntries dp c post').2.2) := by
    intro post'
    rw [scanEntries, if_neg (by simp [hn])]
    rcases hres : scanEntries dp c post' with ⟨a, bc⟩
    simp
  constructor
  · rw [hstep]
    simp [scanEntries]
  · rw [scanEntries_append, if_pos (scan_ok_of_readOk dp c pre hpre), hstep]

/-- C8 witness: an unlistable directory between two skill directories is
reported and contributes nothing, while both siblings are scanned. -/
theorem c8_scan_unreadable_witness :
    (hasSkillMd [FSEntry.dir "inner" true []] = false ∧
      [FSEntry.dir "s1" true [FSEntry.file "skill.md" "a"]].all entryReadOk =
        true) ∧
      scanEntries "/r" ""
          ([FSEntry.dir "s1" true [FSEntry.file "skill.md" "a"]] ++
            FSEntry.dir "bad" false [FSEntry.dir "inner" true []] ::
            [FSEntry.dir "s2" true [FSEntry.file "skill.md" "b"]]) =
        ((scanEntries "/r" ""
            [FSEntry.dir "s1" true [FSEntry.file "skill.md" "a"]]).1 ++
          (scanEntries "/r" ""
            [FSEntry.dir "s2" true [FSEntry.file "skill.md" "b"]]).1,
          (scanEntries "/r" ""
            [FSEntry.dir "s1" true [FSEntry.file "skill.md" "a"]]).2.1 ++
            joinPath "/r" "bad" ::
              (scanEntries "/r" ""
                [FSEntry.dir "s2" true [FSEntry.file "skill.md" "b"]]).2.1,
          (scanEntries "/r" ""
            [FSEntry.dir "s2" true [FSEntry.file "skill.md" "b"]]).2.2) :=
  ⟨⟨rfl, rfl⟩,
    (c8_scan_unreadable "/r" "" "bad" [FSEntry.dir "inner" true []]
      [FSEntry.dir "s1" true [FSEntry.file "skill.md" "a"]]
      [FSEntry.dir "s2" true [FSEntry.file "skill.md" "b"]] rfl rfl).2⟩

theorem joinCats_ne_empty :
    ∀ cats : List String, cats ≠ [] → "" ∉ cats → joinCats cats ≠ "" := by
  intro cats h1 h2
  match cats with
  | [a] =>
    have ha : ¬"" = a := by simpa using h2
    show a ≠ ""
    exact fun e => ha e.symm
  | a :: b :: r =>
    show a ++ "/" ++ joinCats (b :: r) ≠ ""
    intro he
    have hl := congrArg String.length he
    rw [String.length_append, String.length_append] at hl
    have h1 : ("/" : String).length = 1 := rfl
    have h0 : ("" : String).length = 0 := rfl
    omega

theorem joinCats_snoc :
    ∀ (cats : List String) (n : String), "" ∉ cats →
      joinCat (joinCats cats) n = joinCats (cats ++ [n])
  | [], n, _ => by simp [joinCats, joinCat]
  | [a], n, h => by
    have ha : a ≠ "" := fun e => (by simpa using h : ¬"" = a) e.symm
    show joinCat a n = joinCats [a, n]
    rw [joinCat, if_neg ha]
    rfl
  | a :: b :: r, n, h => by
    have h' : "" ∉ b :: r := fun hm => h (List.mem_cons_of_mem _ hm)
    have hne : joinCats (a :: b :: r) ≠ "" := joinCats_ne_empty _ (by simp) h
    rw [joinCat, if_neg hne]
    show a ++ "/" ++ joinCats (b :: r) ++ "/" ++ n =
      joinCats (a :: ((b :: r) ++ [n]))
    rw [show joinCats (a :: ((b :: r) ++ [n])) =
        a ++ "/" ++ joinCats ((b :: r) ++ [n]) from rfl,
      ← joinCats_snoc (b :: r) n h',
      joinCat, if_neg (joinCats_ne_empty _ (by simp) h')]
    simp [String.append_assoc]

/-- C3: category derivation.  The scanner threads the accumulated category
as a string built with the slash-join step; this refinement shows it always
equals the slash-join of the sequence of category directory names from the
scan root down to the current directory — so every record's `category` field
is the slash-joined sequence of category directory names from the repository
root down to the skill's parent, at any nesting depth.  At the root call the
sequence is empty and `joinCats [] = ""`, so a skill whose parent is the
repository root gets the empty category.  Directory names are required
nonempty, as on a real filesystem. -/
theorem c3_category_derivation :
    ∀ (dp : String) (cats : List String) (es : List FSEntry),
      namesOkList es = true → "" ∉ cats →
      scanEntries dp (joinCats cats) es = specScanEntries dp cats es := by
  intro dp cats es
  induction dp, cats, es using specScanEntries.induct with
  | case1 dp cats =>
    intro _ _
    simp [scanEntries, specScanEntries]
  | case2 dp cats n ct rest ih =>
    intro h hc
    rw [namesOkList] at h
    rw [scanEntries, specScanEntries]
    exact ih h hc
  | case3 dp cats n r sub rest hskill content hread recs errs ok heq ih =>
    intro h hc
    rw [namesOkList, Bool.and_eq_true, Bool.and_eq_true] at h
    rw [scanEntries, specScanEntries]
    simp only [hskill, if_true, hread]
    rw [ih h.2 hc]
  | case4 dp cats n r sub rest hskill hread =>
    intro _ _
    rw [scanEntries, specScanEntries]
    simp [hskill, hread]
  | case5 dp cats n r sub rest fullPath hskill recs errs ok heq ihsub ihrest =>
    intro h hc
    rw [namesOkList, Bool.and_eq_true, Bool.and_eq_true] at h
    have hn : n ≠ "" := by simpa using h.1.1
    have hc' : "" ∉ cats ++ [n] := by
      intro hm
      rcases List.mem_append.mp hm with hm | hm
      · exact hc hm
      · exact hn (List.mem_singleton.mp hm).symm
    rw [scanEntries, specScanEntries, if_neg hskill, if_neg hskill,
      joinCats_snoc cats n hc, ihsub h.1.2 hc', ihrest h.2 hc]

/-- C3 witness: the repository with nesting `A/B/skillX` satisfies the
refinement, and the single record found carries category `A/B`. -/
theorem c3_category_derivation_witness :
    (namesOkList exTreeABX = true ∧
      scanEntries "/repo" (joinCats []) exTreeABX =
        specScanEntries "/repo" [] exTreeABX) ∧
      (scanEntries "/repo" "" exTreeABX).1.map SkillRecord.category = ["A/B"] := by
  refine ⟨⟨by simp [namesOkList, exTreeABX], ?_⟩, ?_⟩
  · exact c3_category_derivation "/repo" [] exTreeABX
      (by simp [namesOkList, exTreeABX]) (by simp)
  · simp [scanEntries, exTreeABX, hasSkillMd, findEntry, List.find?,
      FSEntry.name, readSkillMd, mkSkillRecord, joinPath, joinCat]

theorem isJsWs_of_isLineTerm (ch : Char) (h : isLineTerm ch = true) :
    isJsWs ch = true := by
  rw [isLineTerm] at h
  rw [isJsWs]
  rcases Bool.or_eq_true_iff.mp h with h' | h'
  · rcases Bool.or_eq_true_iff.mp h' with h'' | h''
    · rcases Bool.or_eq_true_iff.mp h'' with h3 | h3 <;> simp [h3]
    · simp [h'']
  · simp [h']

theorem dropWhile_idem {α : Type} (p : α → Bool) (l : List α) :
    (l.dropWhile p).dropWhile p = l.dropWhile p := by
  induction l with
  | nil => rfl
  | cons x xs ih =>
    by_cases h : p x = true
    · rw [List.dropWhile_cons_of_pos h, ih]
    · rw [List.dropWhile_cons_of_neg h, List.dropWhile_cons_of_neg h]

theorem trimJs_dropWhile (l : List Char) :
    trimJs (l.dropWhile isJsWs) = trimJs l := by
  rw [trimJs, trimJs, dropWhile_idem]

theorem dropWhile_append_of_ne_nil {α : Type} (p : α → Bool) (l l₂ : List α)
    (h : l.dropWhile p ≠ []) :
    (l ++ l₂).dropWhile p = l.dropWhile p ++ l₂ := by
  rw [List.dropWhile_append]
  rw [if_neg (by simpa using h)]

theorem dropWhile_append_of_all {α : Type} (p : α → Bool) (l l₂ : List α)
    (h : ∀ x ∈ l, p x = true) :
    (l ++ l₂).dropWhile p = l₂.dropWhile p := by
  rw [List.dropWhile_append]
  rw [if_pos (by simp [List.dropWhile_eq_nil_iff.mpr h])]

theorem takeWhile_all {α : Type} (p : α → Bool) (l : List α)
    (h : ∀ x ∈ l, p x = true) : l.takeWhile p = l := by
  induction l with
  | nil => rfl
  | cons x xs ih =>
    rw [List.takeWhile_cons_of_pos (h x (List.mem_cons_self ..))]
    rw [ih (fun y hy => h y (List.mem_cons_of_mem _ hy))]

theorem takeWhile_all_append_stop {α : Type} (p : α → Bool) (l : List α)
    (t : α) (rest : List α) (h : ∀ x ∈ l, p x = true) (ht : p t = false) :
    (l ++ t :: rest).takeWhile p = l := by
  induction l with
  | nil =>
    rw [List.nil_append, List.takeWhile_cons_of_neg (by simp [ht])]
  | cons x xs ih =>
    rw [List.cons_append,
      List.takeWhile_cons_of_pos (h x (List.mem_cons_self ..)),
      ih (fun y hy => h y (List.mem_cons_of_mem _ hy))]

theorem splitLines_no_term (cs : List Char)
    (h : ∀ ch ∈ cs, isLineTerm ch = false) : splitLines cs = [cs] := by
  induction cs with
  | nil => rfl
  | cons c rest ih =>
    rw [splitLines, if_neg (by simp [h c (List.mem_cons_self ..)])]
    rw [ih (fun ch hch => h ch (List.mem_cons_of_mem _ hch))]

theorem splitLines_append (line : List Char) (t : Char) (rest : List Char)
    (h : ∀ ch ∈ line, isLineTerm ch = false) (ht : isLineTerm t = true) :
    splitLines (line ++ t :: rest) = line :: splitLines rest := by
  induction line with
  | nil =>
    rw [List.nil_append, splitLines, if_pos ht]
  | cons c l ih =>
    rw [List.cons_append, splitLines,
      if_neg (by simp [h c (List.mem_cons_self ..)]),
      ih (fun ch hch => h ch (List.mem_cons_of_mem _ hch))]

theorem lineStartSuffixesGo_no_term (cs : List Char)
    (h : ∀ ch ∈ cs, isLineTerm ch = false) : lineStartSuffixesGo cs = [] := by
  induction cs with
  | nil => rfl
  | cons c rest ih =>
    rw [lineStartSuffixesGo, if_neg (by simp [h c (List.mem_cons_self ..)])]
    exact ih (fun ch hch => h ch (List.mem_cons_of_mem _ hch))

theorem lineStartSuffixesGo_append (line : List Char) (t : Char)
    (rest : List Char) (h : ∀ ch ∈ line, isLineTerm ch = false)
    (ht : isLineTerm t = true) :
    lineStartSuffixesGo (line ++ t :: rest) =
      rest :: lineStartSuffixesGo rest := by
  induction line with
  | nil =>
    rw [List.nil_append, lineStartSuffixesGo, if_pos ht]
  | cons c l ih =>
    rw [List.cons_append, lineStartSuffixesGo,
      if_neg (by simp [h c (List.mem_cons_self ..)]),
      ih (fun ch hch => h ch (List.mem_cons_of_mem _ hch))]

theorem findFieldCapture_cons_line (key line : List Char) (t : Char)
    (rest : List Char) (h : ∀ ch ∈ line, isLineTerm ch = false)
    (ht : isLineTerm t = true) :
    findFieldCapture key (line ++ t :: rest) =
      (match matchAtStart key (line ++ t :: rest) with
        | some v => some v
        | none => findFieldCapture key rest) := by
  rw [findFieldCapture, lineStartSuffixes,
    lineStartSuffixesGo_append line t rest h ht, List.findSome?_cons]
  cases matchAtStart key (line ++ t :: rest) with
  | some v => rfl
  | none =>
    rw [findFieldCapture, lineStartSuffixes, List.findSome?_cons]

theorem matchAtStart_eq (key cs : List Char) :
    matchAtStart key cs =
      if key.isPrefixOf (stripHashWs cs) then
        matchAfterKey ((stripHashWs cs).drop key.length)
      else none := rfl

theorem stripHashWs_cons_ne (c : Char) (l : List Char) (hc : c ≠ '#') :
    stripHashWs (c :: l) = (c :: l).dropWhile isJsWs := by
  show (if c = '#' then l else c :: l).dropWhile isJsWs = _
  rw [if_neg hc]

theorem stripHashWs_append_of_ne_nil (line ext : List Char)
    (h : stripHashWs line ≠ []) :
    stripHashWs (line ++ ext) = stripHashWs line ++ ext := by
  cases line with
  | nil => exact absurd rfl h
  | cons c l' =>
    by_cases hc : c = '#'
    · subst hc
      show (l' ++ ext).dropWhile isJsWs = l'.dropWhile isJsWs ++ ext
      exact dropWhile_append_of_ne_nil _ _ _ h
    · rw [List.cons_append, stripHashWs_cons_ne c _ hc,
        stripHashWs_cons_ne c l' hc] at *
      rw [show c :: (l' ++ ext) = (c :: l') ++ ext from rfl]
      exact dropWhile_append_of_ne_nil _ _ _ h

theorem mem_stripHashWs (ch : Char) (line : List Char)
    (h : ch ∈ stripHashWs line) : ch ∈ line := by
  cases line with
  | nil => cases h
  | cons c l' =>
    by_cases hc : c = '#'
    · subst hc
      exact List.mem_cons_of_mem _ ((List.dropWhile_sublist _).mem h)
    · rw [stripHashWs_cons_ne c l' hc] at h
      exact (List.dropWhile_sublist _).mem h

theorem matchAfterKey_of_dropWhile_cons (cs : List Char) (c : Char)
    (l : List Char) (h : cs.dropWhile isJsWs = c :: l) :
    matchAfterKey cs =
      some ((c :: l).takeWhile (fun ch => !isLineTerm ch)) := by
  rw [matchAfterKey, h]

theorem matchAtStart_qualifying (key line ext : List Char)
    (hk1 : key ≠ [])
    (hterm : ∀ ch ∈ line, isLineTerm ch = false)
    (hq : lineQualifies key line = true)
    (hsolid : (lineRemainder key line).dropWhile isJsWs ≠ [])
    (hext : ext = [] ∨ ∃ t rest, ext = t :: rest ∧ isLineTerm t = true) :
    matchAtStart key (line ++ ext) =
      some ((lineRemainder key line).dropWhile isJsWs) := by
  have hsw : stripHashWs line ≠ [] := by
    intro he
    rw [lineQualifies, he] at hq
    cases key with
    | nil => exact hk1 rfl
    | cons kh kt => simp [List.isPrefixOf] at hq
  have hpre : key <+: stripHashWs line :=
    List.isPrefixOf_iff_prefix.mp hq
  obtain ⟨rem, hrem⟩ := hpre
  have hremEq : lineRemainder key line = rem := by
    rw [lineRemainder, ← hrem, List.drop_left]
  rw [matchAtStart_eq, stripHashWs_append_of_ne_nil line ext hsw, ← hrem]
  rw [if_pos (by
    rw [List.append_assoc]
    exact List.isPrefixOf_iff_prefix.mpr (List.prefix_append _ _))]
  rw [List.append_assoc, List.drop_left]
  rw [hremEq] at hsolid ⊢
  rcases hr' : rem.dropWhile isJsWs with _ | ⟨r0, rtl⟩
  · exact absurd hr' hsolid
  · have hdw : (rem ++ ext).dropWhile isJsWs = r0 :: (rtl ++ ext) := by
      rw [dropWhile_append_of_ne_nil _ _ _ (by rw [hr']; simp), hr']
      rfl
    rw [matchAfterKey_of_dropWhile_cons _ _ _ hdw]
    have hrem' : ∀ ch ∈ r0 :: rtl, isLineTerm ch = false := by
      intro ch hch
      refine hterm ch (mem_stripHashWs ch line ?_)
      rw [← hrem]
      refine List.mem_append_right _ ?_
      exact (List.dropWhile_sublist _).mem (hr' ▸ hch)
    have hrt : ∀ ch ∈ r0 :: rtl, (fun ch => !isLineTerm ch) ch = true := by
      intro ch hch
      simp [hrem' ch hch]
    rcases hext with he | ⟨t, rest, he, ht⟩
    · subst he
      rw [show r0 :: (rtl ++ ([] : List Char)) = r0 :: rtl from by simp]
      rw [takeWhile_all _ _ hrt]
    · subst he
      rw [show r0 :: (rtl ++ t :: rest) = (r0 :: rtl) ++ t :: rest from rfl]
      rw [takeWhile_all_append_stop _ _ _ _ hrt (by simp [ht])]

theorem matchAtStart_not_qualifying (key line ext : List Char)
    (hk3 : ∀ ch ∈ key, isLineTerm ch = false)
    (hsw : stripHashWs line ≠ [])
    (hq : lineQualifies key line = false)
    (hext : ext = [] ∨ ∃ t rest, ext = t :: rest ∧ isLineTerm t = true) :
    matchAtStart key (line ++ ext) = none := by
  rw [matchAtStart_eq, stripHashWs_append_of_ne_nil line ext hsw]
  rw [if_neg ?hp]
  case hp =>
    intro hpre
    have hp : key <+: stripHashWs line ++ ext :=
      List.isPrefixOf_iff_prefix.mp hpre
    have hnp : ¬ key <+: stripHashWs line := by
      intro h
      have := List.isPrefixOf_iff_prefix.mpr h
      rw [lineQualifies] at hq
      rw [hq] at this
      cases this
    rcases List.prefix_or_prefix_of_prefix hp (List.prefix_append _ _) with
      h | h
    · exact hnp h
    · obtain ⟨k', rfl⟩ := h
      cases k' with
      | nil =>
        exact hnp (by simp)
      | cons kh ktl =>
        have h2 : kh :: ktl <+: ext := (List.prefix_append_right_inj _).mp hp
        rcases hext with he | ⟨t, rest, he, ht⟩
        · subst he
          have := List.prefix_nil.mp h2
          cases this
        · subst he
          have hkt : kh = t := (List.cons_prefix_cons.mp h2).1
          have hmem : kh ∈ stripHashWs line ++ kh :: ktl :=
            List.mem_append_right _ (List.mem_cons_self ..)
          have hfalse := hk3 kh hmem
          rw [hkt, ht] at hfalse
          cases hfalse

theorem matchAtStart_wsline (key line : List Char) (t : Char)
    (rest : List Char) (hk1 : key ≠ []) (hk2 : key.head? ≠ some '#')
    (hsw : stripHashWs line = []) (ht : isLineTerm t = true) (v : List Char)
    (hv : matchAtStart key (line ++ t :: rest) = some v) :
    matchAtStart key rest = some v := by
  have hws : stripHashWs (line ++ t :: rest) = rest.dropWhile isJsWs := by
    cases line with
    | nil =>
      have htne : t ≠ '#' := by
        intro he
        rw [he] at ht
        exact absurd ht (by decide)
      rw [List.nil_append, stripHashWs_cons_ne t rest htne,
        List.dropWhile_cons_of_pos (isJsWs_of_isLineTerm t ht)]
    | cons c l' =>
      by_cases hc : c = '#'
      · subst hc
        have hall : ∀ ch ∈ l', isJsWs ch = true :=
          List.dropWhile_eq_nil_iff.mp hsw
        rw [show stripHashWs ('#' :: l' ++ t :: rest) =
            (l' ++ t :: rest).dropWhile isJsWs from rfl,
          dropWhile_append_of_all _ _ _ hall,
          List.dropWhile_cons_of_pos (isJsWs_of_isLineTerm t ht)]
      · have hall : ∀ ch ∈ c :: l', isJsWs ch = true := by
          refine List.dropWhile_eq_nil_iff.mp ?_
          rw [← stripHashWs_cons_ne c l' hc]
          exact hsw
        rw [List.cons_append, stripHashWs_cons_ne c _ hc,
          show c :: (l' ++ t :: rest) = (c :: l') ++ t :: rest from rfl,
          dropWhile_append_of_all _ _ _ hall,
          List.dropWhile_cons_of_pos (isJsWs_of_isLineTerm t ht)]
  rw [matchAtStart_eq, hws] at hv
  cases rest with
  | nil =>
    rw [show ([] : List Char).dropWhile isJsWs = [] from rfl] at hv
    cases key with
    | nil => exact absurd rfl hk1
    | cons kh kt =>
      rw [if_neg (by simp [List.isPrefixOf])] at hv
      cases hv
  | cons r0 rtl =>
    by_cases hr0 : r0 = '#'
    · subst hr0
      rw [List.dropWhile_cons_of_neg (by decide)] at hv
      cases key with
      | nil => exact absurd rfl hk1
      | cons kh kt =>
        have hkh : ¬(kh = '#') := by
          intro he
          rw [List.head?] at hk2
          exact hk2 (by rw [he])
        rw [if_neg (by simp [List.isPrefixOf, hkh])] at hv
        cases hv
    · rw [matchAtStart_eq, stripHashWs_cons_ne r0 rtl hr0]
      exact hv

theorem dropWhile_head_false {α : Type} (p : α → Bool) :
    ∀ (l : List α) (x : α) (xs : List α), l.dropWhile p = x :: xs →
      p x = false
  | [], x, xs, h => by cases h
  | c :: cl, x, xs, h => by
    by_cases hc : p c = true
    · rw [List.dropWhile_cons_of_pos hc] at h
      exact dropWhile_head_false p cl x xs h
    · rw [List.dropWhile_cons_of_neg hc] at h
      cases h
      simpa using hc

theorem lineInduction (P : List Char → Prop)
    (h1 : ∀ cs, (∀ ch ∈ cs, isLineTerm ch = false) → P cs)
    (h2 : ∀ line t rest, (∀ ch ∈ line, isLineTerm ch = false) →
      isLineTerm t = true → P rest → P (line ++ t :: rest)) :
    ∀ cs, P cs := by
  have key : ∀ (n : Nat) (cs : List Char), cs.length ≤ n → P cs := by
    intro n
    induction n with
    | zero =>
      intro cs h
      have he : cs = [] := List.length_eq_zero.mp (Nat.le_zero.mp h)
      subst he
      exact h1 [] (by simp)
    | succ n ih =>
      intro cs hlen
      by_cases hterm : ∀ ch ∈ cs, isLineTerm ch = false
      · exact h1 cs hterm
      · cases hr : cs.dropWhile (fun ch => !isLineTerm ch) with
        | nil =>
          refine absurd ?_ hterm
          intro ch hch
          have hall := List.dropWhile_eq_nil_iff.mp hr ch hch
          simpa using hall
        | cons t rrest =>
          have hT : isLineTerm t = true := by
            have := dropWhile_head_false _ _ _ _ hr
            simpa using this
          have hlineT : ∀ ch ∈ cs.takeWhile (fun ch => !isLineTerm ch),
              isLineTerm ch = false := by
            intro ch hch
            have := List.mem_takeWhile_imp hch
            simpa using this
          have hcs : cs = cs.takeWhile (fun ch => !isLineTerm ch) ++
              t :: rrest := by
            rw [← hr]
            exact (List.takeWhile_append_dropWhile ..).symm
          have hlen' : rrest.length ≤ n := by
            have hl := congrArg List.length hcs
            rw [List.length_append, List.length_cons] at hl
            omega
          rw [hcs]
          exact h2 _ t rrest hlineT hT (ih rrest hlen')
  exact fun cs => key cs.length cs le_rfl

theorem extract_core (key : List Char) (hk1 : key ≠ [])
    (hk2 : key.head? ≠ some '#')
    (hk3 : ∀ ch ∈ key, isLineTerm ch = false) :
    ∀ cs : List Char,
      (∀ line ∈ splitLines cs, lineQualifies key line = true →
        (lineRemainder key line).dropWhile isJsWs ≠ []) →
      (findFieldCapture key cs).map (fun cap => String.mk (trimJs cap)) =
        ((splitLines cs).find? (lineQualifies key)).map
          (fun l => String.mk (trimJs (lineRemainder key l))) := by
  intro cs
  induction cs using lineInduction with
  | h1 cs hterm =>
    intro hsolid
    rw [splitLines_no_term cs hterm] at hsolid ⊢
    rw [findFieldCapture, lineStartSuffixes,
      lineStartSuffixesGo_no_term cs hterm]
    by_cases hq : lineQualifies key cs = true
    · have hcap := matchAtStart_qualifying key cs [] hk1 hterm hq
        (hsolid cs (List.mem_cons_self ..) hq) (Or.inl rfl)
      rw [List.append_nil] at hcap
      simp only [List.findSome?_cons, hcap, List.find?_cons, hq]
      simp [trimJs_dropWhile]
    · have hq' : lineQualifies key cs = false := by simpa using hq
      have hnone : matchAtStart key cs = none := by
        cases hsw : stripHashWs cs with
        | nil =>
          rw [matchAtStart_eq, hsw]
          cases key with
          | nil => exact absurd rfl hk1
          | cons kh kt => rw [if_neg (by simp [List.isPrefixOf])]
        | cons c0 ctl =>
          have h := matchAtStart_not_qualifying key cs [] hk3
            (by rw [hsw]; simp) hq' (Or.inl rfl)
          rwa [List.append_nil] at h
      simp only [List.findSome?_cons, hnone, List.findSome?_nil,
        List.find?_cons, hq', List.find?_nil, Option.map_none']
  | h2 line t rest hlineT hT ih =>
    intro hsolid
    rw [splitLines_append line t rest hlineT hT] at hsolid ⊢
    rw [findFieldCapture_cons_line key line t rest hlineT hT]
    by_cases hq : lineQualifies key line = true
    · have hcap := matchAtStart_qualifying key line (t :: rest) hk1 hlineT hq
        (hsolid line (List.mem_cons_self ..) hq) (Or.inr ⟨t, rest, rfl, hT⟩)
      simp only [hcap, List.find?_cons, hq]
      simp [trimJs_dropWhile]
    · have hq' : lineQualifies key line = false := by simpa using hq
      have hrest := ih (fun l hl hql => hsolid l (List.mem_cons_of_mem _ hl) hql)
      simp only [List.find?_cons, hq']
      cases hsw : stripHashWs line with
      | nil =>
        have hstep : (match matchAtStart key (line ++ t :: rest) with
            | some v => some v
            | none => findFieldCapture key rest) =
            findFieldCapture key rest := by
          cases hm : matchAtStart key (line ++ t :: rest) with
          | none => rfl
          | some v =>
            have hv := matchAtStart_wsline key line t rest hk1 hk2 hsw hT v hm
            rw [findFieldCapture, lineStartSuffixes, List.findSome?_cons, hv]
        rw [hstep]
        exact hrest
      | cons c0 ctl =>
        have hnone := matchAtStart_not_qualifying key line (t :: rest) hk3
          (by rw [hsw]; simp) hq' (Or.inr ⟨t, rest, rfl, hT⟩)
        simp only [hnone]
        exact hrest

/-- C9 counterexample: the first line of the descriptor beginning with the
keyword and colon does not determine the field's value.  In `name:\nfoo`,
the first (and only) line qualifying under the claim's criterion is `name:`,
whose trimmed remainder is empty — yet the extractor returns `foo`, because
the regex's whitespace element after the colon matches the line break and
the capture is taken from the following line. -/
theorem c9_counterexample :
    extractField "name:" "name:\nfoo" = some "foo" ∧
      specExtractField "name:" "name:\nfoo" = some "" ∧
      (splitLines ("name:\nfoo").data).find?
          (lineQualifies ("name:").data) = some ("name:").data := by
  refine ⟨?_, ?_, ?_⟩ <;> decide

/-- C9 amended: field matching is line-anchored with first-match-wins,
provided every line that begins (after an optional leading hash and
whitespace) with the keyword and colon carries a non-whitespace character
after the colon.  Under that proviso the extracted value is exactly the
trimmed remainder of the earliest such line, several such lines are resolved
in favour of the earliest, and a keyword appearing mid-line is never matched
(with no qualifying line, extraction yields nothing).  When a qualifying
line's remainder is empty or all whitespace, the regex's whitespace element
crosses the line break and the value is drawn from subsequent lines, which
is the behaviour the proviso excludes. -/
theorem c9_field_matching (key content : String)
    (hk1 : key.data ≠ [])
    (hk2 : key.data.head? ≠ some '#')
    (hk3 : ∀ ch ∈ key.data, isLineTerm ch = false)
    (hsolid : ∀ line ∈ splitLines content.data,
      lineQualifies key.data line = true →
      (lineRemainder key.data line).dropWhile isJsWs ≠ []) :
    extractField key content = specExtractField key content := by
  rw [extractField, specExtractField]
  exact extract_core key.data hk1 hk2 hk3 content.data hsolid

/-- C9 witness: on a descriptor with two `name:` lines with solid values,
extraction agrees with the first-qualifying-line specification and yields
the earliest line's value. -/
theorem c9_field_matching_witness :
    (∀ line ∈ splitLines ("x\nname: a\nname: b").data,
        lineQualifies ("name:").data line = true →
        (lineRemainder ("name:").data line).dropWhile isJsWs ≠ []) ∧
      extractField "name:" "x\nname: a\nname: b" =
        specExtractField "name:" "x\nname: a\nname: b" ∧
      extractField "name:" "x\nname: a\nname: b" = some "a" := by
  refine ⟨by decide, ?_, by decide⟩
  exact c9_field_matching "name:" "x\nname: a\nname: b" (by decide) (by decide)
    (by decide) (by decide)

end SkillManager
